import Mathlib

/-!
Verification of the BET sample-set / discretization data model
(`bet/sample.py`) and the measure-comparison utility
(`bet/postProcess/compareP.py`) against its natural-language specification.

Machine floats are modelled by `ℚ` (or `ℝ` where the source takes square
roots, powers or Gamma values), numpy arrays by lists or `Fin`-indexed
functions, and fallible methods by `Except`.
-/

namespace BET

/-! ### Worker partitioning (bet.sample: global_to_local, estimate_volume) -/

/-- Size of worker `r`'s share when `n` items are split over `W` workers:
`n / W` plus one more for the first `n % W` ranks.  This is both
`numpy.array_split`'s part size (used by `sample_set_base.global_to_local`)
and `n_mc_points_local` in `sample_set_base.estimate_volume`
(`int(n_mc_points/comm.size) + int(comm.rank < n_mc_points % comm.size)`). -/
def splitSize (n W r : ℕ) : ℕ := n / W + if r < n % W then 1 else 0

lemma sum_ite_lt (m W : ℕ) (h : m ≤ W) :
    ∑ r ∈ Finset.range W, (if r < m then 1 else 0) = m := by
  induction W with
  | zero =>
    simp only [Finset.range_zero, Finset.sum_empty]
    omega
  | succ W ih =>
    rw [Finset.sum_range_succ]
    rcases Nat.lt_or_ge W m with hlt | hge
    · have hm : m = W + 1 := by omega
      subst hm
      rw [if_pos hlt]
      have hall : ∑ r ∈ Finset.range W, (if r < W + 1 then 1 else 0)
          = ∑ _r ∈ Finset.range W, 1 := by
        apply Finset.sum_congr rfl
        intro r hr
        rw [if_pos (by have := Finset.mem_range.mp hr; omega)]
      rw [hall, Finset.sum_const, Finset.card_range, smul_eq_mul, mul_one]
    · rw [ih hge, if_neg (by omega)]
      omega

/-- The per-worker shares add back up to `n` whenever there is at least one
worker. -/
lemma sum_splitSize (n W : ℕ) (hW : 0 < W) :
    ∑ r ∈ Finset.range W, splitSize n W r = n := by
  unfold splitSize
  rw [Finset.sum_add_distrib, Finset.sum_const, Finset.card_range,
    sum_ite_lt (n % W) W (le_of_lt (Nat.mod_lt n hW))]
  rw [smul_eq_mul]
  exact Nat.div_add_mod n W

lemma list_range_map_sum {M : Type*} [AddCommMonoid M] (f : ℕ → M) (n : ℕ) :
    ((List.range n).map f).sum = ∑ i ∈ Finset.range n, f i := by
  induction n with
  | zero => simp
  | succ n ih => rw [List.range_succ, List.map_append, List.sum_append,
      Finset.sum_range_succ, ih]; simp

/-! ### Local/global round trip (C7) -/

/-- Splitting a list into consecutive parts of the given sizes, in order
(the shape of `numpy.array_split`). -/
def splitBySizes {α : Type*} : List ℕ → List α → List (List α)
  | [], _ => []
  | s :: ss, l => l.take s :: splitBySizes ss (l.drop s)

/-- numpy.array_split of `l` into `W` parts: consecutive blocks whose sizes
are `splitSize l.length W r` for ranks `r = 0, …, W-1`.
`sample_set_base.global_to_local` keeps part `r` as worker `r`'s local
shard. -/
def arraySplit {α : Type*} (l : List α) (W : ℕ) : List (List α) :=
  splitBySizes ((List.range W).map fun r => splitSize l.length W r) l

/-- Modelled from the spec: `bet.util.get_global_values` (the file
`bet/util.py` is not under src/) is an all-gather that concatenates the
workers' local shards in worker-rank order;
`sample_set_base.local_to_global` stores that concatenation as the global
array. -/
def localToGlobal {α : Type*} (shards : List (List α)) : List α := shards.flatten

lemma join_splitBySizes {α : Type*} (ss : List ℕ) (l : List α)
    (h : l.length ≤ ss.sum) : (splitBySizes ss l).flatten = l := by
  induction ss generalizing l with
  | nil =>
    simp only [List.sum_nil, Nat.le_zero, List.length_eq_zero] at h
    simp [splitBySizes, h]
  | cons s ss ih =>
    simp only [splitBySizes, List.flatten_cons]
    rw [ih (l.drop s) (by simp only [List.length_drop, List.sum_cons] at h ⊢; omega)]
    exact List.take_append_drop s l

/-- Claim C7: splitting every global array into worker-count contiguous
blocks (`global_to_local`) and then concatenating the local shards in
worker-rank order (`local_to_global`) reproduces the original global array
exactly, with the same values in the same order. -/
theorem global_local_round_trip {α : Type*} (l : List α) (W : ℕ) (hW : 0 < W) :
    localToGlobal (arraySplit l W) = l := by
  unfold localToGlobal arraySplit
  apply join_splitBySizes
  rw [list_range_map_sum, sum_splitSize l.length W hW]

/-- Witness for C7 at a concrete array and worker count. -/
theorem global_local_round_trip_witness :
    localToGlobal (arraySplit [(3 : ℚ), 1, 4, 1, 5] 2) = [3, 1, 4, 1, 5] :=
  global_local_round_trip [(3 : ℚ), 1, 4, 1, 5] 2 (by decide)

/-! ### Monte-Carlo volume estimation (C4) -/

/-- bet.sample.sample_set_base.estimate_volume with the random draw
abstracted: `ptrs` lists, per worker, the owning-cell index `query`
returned for each of that worker's Monte-Carlo points; the MPI `Allreduce`
with `op=MPI.SUM` (bet.Comm is not under src/; modelled from the spec as a
sum over workers) turns per-worker cell counts into global ones, and the
result is normalized by the requested total point count. -/
def estimateVolume (num : ℕ) (ptrs : List (List ℕ)) (nMcPoints : ℕ) : List ℚ :=
  (List.range num).map fun i =>
    (((ptrs.map fun l => l.countP (· = i)).sum : ℕ) : ℚ) / (nMcPoints : ℚ)

lemma sum_countP_le_length (l : List ℕ) (num : ℕ) :
    ∑ i ∈ Finset.range num, l.countP (· = i) ≤ l.length := by
  induction l with
  | nil => simp
  | cons a t ih =>
    have hcons : ∀ i, (a :: t).countP (· = i) =
        t.countP (· = i) + if a = i then 1 else 0 := by
      intro i
      rw [List.countP_cons]
      simp
    rw [Finset.sum_congr rfl fun i _ => hcons i, Finset.sum_add_distrib]
    have hone : ∑ i ∈ Finset.range num, (if a = i then 1 else 0) ≤ 1 := by
      rw [Finset.sum_ite_eq (Finset.range num) a fun _ => 1]
      split <;> omega
    simp only [List.length_cons]
    omega

lemma sum_counts_le_total (num : ℕ) (ptrs : List (List ℕ)) :
    ∑ i ∈ Finset.range num, (ptrs.map fun l => l.countP (· = i)).sum ≤
      (ptrs.map List.length).sum := by
  induction ptrs with
  | nil => simp
  | cons l t ih =>
    simp only [List.map_cons, List.sum_cons]
    rw [Finset.sum_add_distrib]
    exact Nat.add_le_add (sum_countP_le_length l num) ih

/-- Claim C4: for any assignment of the drawn Monte-Carlo points to owning
cells, `estimate_volume` returns a vector of length `num` whose entries are
non-negative and sum to at most 1, where worker `r` draws exactly
`splitSize nMc W r` points (integer division with the remainder going to
the lowest ranks) and those per-worker counts sum to `nMc`. -/
theorem estimate_volume_props (num W nMc : ℕ) (ptrs : List (List ℕ))
    (hW : 0 < W) (hn : 0 < nMc)
    (hsizes : ptrs.map List.length = (List.range W).map fun r => splitSize nMc W r) :
    (estimateVolume num ptrs nMc).length = num
    ∧ (∀ v ∈ estimateVolume num ptrs nMc, 0 ≤ v)
    ∧ (estimateVolume num ptrs nMc).sum ≤ 1
    ∧ ((List.range W).map fun r => splitSize nMc W r).sum = nMc := by
  have htotal : (ptrs.map List.length).sum = nMc := by
    rw [hsizes, list_range_map_sum, sum_splitSize nMc W hW]
  refine ⟨by simp [estimateVolume], ?_, ?_, by
    rw [list_range_map_sum, sum_splitSize nMc W hW]⟩
  · intro v hv
    simp only [estimateVolume, List.mem_map] at hv
    obtain ⟨i, _, rfl⟩ := hv
    positivity
  · unfold estimateVolume
    rw [list_range_map_sum]
    rw [← Finset.sum_div]
    rw [div_le_one (by exact_mod_cast hn)]
    have hle := sum_counts_le_total num ptrs
    rw [htotal] at hle
    rw [← Nat.cast_sum]
    exact_mod_cast hle

/-- Witness for C4: two cells, one worker, two Monte-Carlo points. -/
theorem estimate_volume_props_witness :
    (estimateVolume 2 [[0, 5]] 2).length = 2
    ∧ (∀ v ∈ estimateVolume 2 [[0, 5]] 2, 0 ≤ v)
    ∧ (estimateVolume 2 [[0, 5]] 2).sum ≤ 1
    ∧ ((List.range 1).map fun r => splitSize 2 1 r).sum = 2 :=
  estimate_volume_props 2 1 2 [[0, 5]] (by decide) (by decide) (by decide)

/-! ### Sample-set consistency checks and discretization construction (C8) -/

/-- Error kinds raised by bet.sample: `length_not_matching` and
`dim_not_matching`. -/
inductive SampleErr where
  | lengthNotMatching
  | dimNotMatching
deriving DecidableEq

/-- Global per-sample arrays of bet.sample.sample_set_base, each optionally
present, in the order of `sample_set_base.array_names`; a `(num, dim)`
array is a list of `num` rows. -/
structure SampleSet where
  dim : ℕ
  values : Option (List (List ℚ)) := none
  volumes : Option (List ℚ) := none
  probabilities : Option (List ℚ) := none
  jacobians : Option (List (List (List ℚ))) := none
  errorEstimates : Option (List ℚ) := none
  right : Option (List (List ℚ)) := none
  left : Option (List (List ℚ)) := none
  width : Option (List (List ℚ)) := none
  kdtreeValues : Option (List (List ℚ)) := none
  radii : Option (List ℚ) := none
  normalizedRadii : Option (List ℚ) := none
  region : Option (List ℤ) := none
  errorId : Option (List ℤ) := none
  /-- Leading dimensions of the local twin arrays (the `_local` attributes),
  kept as bare lengths; the distributed all-reduce fallback of `check_num`
  is modelled at a single worker. -/
  localArrayLens : List (Option ℕ) := []

/-- Leading dimension (`shape[0]`) of each present global array, in
`array_names` order. -/
def SampleSet.arrayLens (s : SampleSet) : List (Option ℕ) :=
  [s.values.map List.length, s.volumes.map List.length,
   s.probabilities.map List.length, s.jacobians.map List.length,
   s.errorEstimates.map List.length, s.right.map List.length,
   s.left.map List.length, s.width.map List.length,
   s.kdtreeValues.map List.length, s.radii.map List.length,
   s.normalizedRadii.map List.length, s.region.map List.length,
   s.errorId.map List.length]

/-- The scan of `sample_set_base.check_num`: the first present array fixes
`num`, every later present array must agree or `length_not_matching` is
raised; `none` is returned when no array is present. -/
def checkNumAux : List (Option ℕ) → Option ℕ → Except SampleErr (Option ℕ)
  | [], acc => Except.ok acc
  | none :: rest, acc => checkNumAux rest acc
  | some m :: rest, none => checkNumAux rest (some m)
  | some m :: rest, some n =>
    if n = m then checkNumAux rest (some n)
    else Except.error SampleErr.lengthNotMatching

/-- bet.sample.sample_set_base.check_num: scan the global arrays for a
consistent leading dimension, raise `dim_not_matching` when a row of
`values` disagrees with `dim`, and fall back to the (all-reduced) local
count when no global array is present. -/
def SampleSet.checkNum (s : SampleSet) : Except SampleErr ℕ := do
  let num ← checkNumAux s.arrayLens none
  if s.values.elim false (fun v => v.any fun row => row.length != s.dim) then
    Except.error SampleErr.dimNotMatching
  else
    match num with
    | some n => pure n
    | none => do
      let numLocal ← checkNumAux s.localArrayLens none
      pure (numLocal.getD 0)

/-- bet.sample.discretization, restricted to the fields claim C8 touches. -/
structure Discretization where
  inputSampleSet : SampleSet
  outputSampleSet : Option SampleSet := none

/-- bet.sample.discretization.check_nums: compare the output and input
sample counts; raise `length_not_matching` when they differ and both sides
have values, otherwise return the input count. -/
def checkNums (inputSet outputSet : SampleSet) : Except SampleErr ℕ := do
  let outNum ← outputSet.checkNum
  let inNum ← inputSet.checkNum
  if outNum ≠ inNum ∧ outputSet.values.isSome ∧ inputSet.values.isSome then
    Except.error SampleErr.lengthNotMatching
  else
    pure inNum

/-- bet.sample.discretization.__init__ restricted to
`output_probability_set = None` (so the `set_io_ptr` branch is not taken):
whenever an output sample set is supplied, `check_nums` runs. -/
def discretizationInit (inputSet : SampleSet) (outputSet : Option SampleSet) :
    Except SampleErr Discretization := do
  match outputSet with
  | some o => do
    let _ ← checkNums inputSet o
    pure { inputSampleSet := inputSet, outputSampleSet := some o }
  | none => pure { inputSampleSet := inputSet, outputSampleSet := none }

/-- Claim C8: with both sample sets individually consistent and both
holding global values, `check_nums` raises the length-not-matching error
exactly when the two sample counts differ, returns the common count
otherwise, and construction with a supplied output sample set fails exactly
when `check_nums` does. -/
theorem check_nums_characterization (inS outS : SampleSet) (ni no : ℕ)
    (hi : inS.checkNum = Except.ok ni) (ho : outS.checkNum = Except.ok no)
    (hvi : inS.values.isSome = true) (hvo : outS.values.isSome = true) :
    (checkNums inS outS = Except.error SampleErr.lengthNotMatching ↔ ni ≠ no)
    ∧ (ni = no → checkNums inS outS = Except.ok ni)
    ∧ (discretizationInit inS (some outS) = Except.error SampleErr.lengthNotMatching
        ↔ checkNums inS outS = Except.error SampleErr.lengthNotMatching) := by
  have hm : checkNums inS outS =
      if no ≠ ni ∧ outS.values.isSome ∧ inS.values.isSome then
        Except.error SampleErr.lengthNotMatching
      else Except.ok ni := by
    simp only [checkNums, ho, hi, bind]
    rfl
  refine ⟨?_, ?_, ?_⟩
  · rw [hm]
    rcases eq_or_ne no ni with hne | hne
    · subst hne
      rw [if_neg (by simp)]
      simp
    · rw [if_pos ⟨hne, hvo, hvi⟩]
      simpa using Ne.symm hne
  · intro heq
    rw [hm, if_neg (by simp [heq])]
  · cases hcn : checkNums inS outS with
    | ok v => simp [discretizationInit, hcn, bind, Except.bind, pure, Except.pure]
    | error e => simp [discretizationInit, hcn, bind, Except.bind]

/-- Witness for C8: two one-sample, one-dimensional sets. -/
theorem check_nums_characterization_witness :
    (checkNums { dim := 1, values := some [[0]] } { dim := 1, values := some [[7]] }
        = Except.error SampleErr.lengthNotMatching ↔ (1 : ℕ) ≠ 1)
    ∧ ((1 : ℕ) = 1 →
        checkNums { dim := 1, values := some [[0]] } { dim := 1, values := some [[7]] }
          = Except.ok 1)
    ∧ (discretizationInit { dim := 1, values := some [[0]] }
          (some { dim := 1, values := some [[7]] })
          = Except.error SampleErr.lengthNotMatching
        ↔ checkNums { dim := 1, values := some [[0]] } { dim := 1, values := some [[7]] }
          = Except.error SampleErr.lengthNotMatching) :=
  check_nums_characterization { dim := 1, values := some [[0]] }
    { dim := 1, values := some [[7]] } 1 1 rfl rfl rfl rfl

/-! ### Data-driven loss reduction (C9) -/

/-- bet.sample.discretization.loss_fun: rows of `outputs` are per-sample
simulated outputs; the residual `outputs - data` is divided elementwise by
`dataStd`, and `mode` reduces each weighted-residual row to a scalar
(numpy shape mechanics such as the final `reshape(-1, 1)` are dropped). -/
noncomputable def lossFun (outputs : List (List ℝ)) (data dataStd : List ℝ)
    (mode : String) : Except String (List ℝ) :=
  let weightedResiduals := outputs.map fun row =>
    List.zipWith (fun od s => od / s) (List.zipWith (fun o d => o - d) row data) dataStd
  if mode = "SWE" then
    Except.ok (weightedResiduals.map List.sum)
  else if mode = "MSE" then
    Except.ok (weightedResiduals.map fun r =>
      (1 / Real.sqrt data.length) * (r.map fun a => a ^ 2).sum)
  else if mode = "SSE" then
    Except.ok (weightedResiduals.map fun r => (r.map fun a => a ^ 2).sum)
  else
    Except.error "Choose mode from [SWE, MSE, SSE]"

/-- Counterexample to claim C9 as stated: for the data-driven mode "MSE"
the code does not take the mean of the squared weighted residuals.  With
four data points and weighted residuals `[2, 0, 0, 0]` the mean of the
squares is 1, but `loss_fun` returns `sum / sqrt(4) = 2`. -/
theorem loss_fun_mse_counterexample :
    lossFun [[2, 0, 0, 0]] [0, 0, 0, 0] [1, 1, 1, 1] "MSE" ≠ Except.ok [1] := by
  have h4 : Real.sqrt (4 : ℝ) = 2 := by
    rw [show (4 : ℝ) = (2 : ℝ) ^ 2 by norm_num]
    exact Real.sqrt_sq (by norm_num)
  simp only [lossFun, List.map_cons, List.map_nil, List.zipWith_cons_cons,
    List.zipWith_nil_right, List.length_cons, List.length_nil]
  rw [if_pos trivial]
  simp only [List.sum_cons, List.sum_nil]
  norm_num [h4]

/-- Claim C9 as amended: mode "SWE" sums each weighted-residual row, mode
"MSE" multiplies the row's sum of squares by `1 / sqrt(len(data))` (not the
mean of the squares), mode "SSE" sums the squares, and every other mode
string raises a ValueError. -/
theorem loss_fun_modes (outputs : List (List ℝ)) (data dataStd : List ℝ) :
    lossFun outputs data dataStd "SWE" =
      Except.ok (outputs.map fun row =>
        (List.zipWith (fun od s => od / s)
          (List.zipWith (fun o d => o - d) row data) dataStd).sum)
    ∧ lossFun outputs data dataStd "MSE" =
      Except.ok (outputs.map fun row =>
        (1 / Real.sqrt data.length) *
          (((List.zipWith (fun od s => od / s)
            (List.zipWith (fun o d => o - d) row data) dataStd).map
              fun a => a ^ 2).sum))
    ∧ lossFun outputs data dataStd "SSE" =
      Except.ok (outputs.map fun row =>
        (((List.zipWith (fun od s => od / s)
          (List.zipWith (fun o d => o - d) row data) dataStd).map
            fun a => a ^ 2).sum))
    ∧ ∀ mode : String, mode ≠ "SWE" → mode ≠ "MSE" → mode ≠ "SSE" →
        lossFun outputs data dataStd mode = Except.error "Choose mode from [SWE, MSE, SSE]" := by
  refine ⟨by simp [lossFun], by simp [lossFun], by simp [lossFun], ?_⟩
  intro mode h1 h2 h3
  simp [lossFun, h1, h2, h3]

/-! ### Comparison functionals (C1) -/

/-- scipy.spatial.distance.minkowski with a uniform scalar weight:
`(Σ w * |u_i - v_i|^p)^(1/p)`; the unweighted call is `w = 1`. -/
noncomputable def minkowski (p w : ℝ) (u v : List ℝ) : ℝ :=
  ((List.zipWith (fun a b => w * |a - b| ^ p) u v).sum) ^ p⁻¹

/-- numpy.linalg.norm with its default order, the Euclidean norm. -/
noncomputable def norm2 (v : List ℝ) : ℝ :=
  Real.sqrt ((v.map fun a => a ^ 2).sum)

/-- scipy.spatial.distance.sqeuclidean: `Σ (u_i - v_i)^2`. -/
def sqeuclidean (u v : List ℝ) : ℝ :=
  (List.zipWith (fun a b => (a - b) ^ 2) u v).sum

/-- The functional argument of comparison.value: one of the recognized
keyword families or an arbitrary caller-supplied two-array functional. -/
inductive CompFunctional where
  | tv
  | mink (p : ℝ)
  | norm
  | euclidean
  | sqhell
  | hell
  | arbitrary (g : List ℝ → List ℝ → ℝ)

/-- The `dist` each dispatch branch of comparison.value computes before the
shared final division (the `hell` keyword returns early and never reaches
that division, so its row here is never consulted). -/
noncomputable def rawDist : CompFunctional → List ℝ → List ℝ → ℝ
  | CompFunctional.tv, l, r => minkowski 1 (1 / 2) l r
  | CompFunctional.mink p, l, r => minkowski p 1 l r
  | CompFunctional.norm, l, r => norm2 (List.zipWith (fun a b => a - b) l r)
  | CompFunctional.euclidean, l, r => minkowski 2 1 l r
  | CompFunctional.sqhell, l, r =>
      sqeuclidean (l.map Real.sqrt) (r.map Real.sqrt) / 2
  | CompFunctional.hell, _, _ => 0
  | CompFunctional.arbitrary g, l, r => g l r

/-- bet.postProcess.compareP.comparison.value on the cached left and right
density vectors, with `num` the emulated sample set's `check_num()`: every
branch falls through to `return dist / check_num()` except `hell`, which
early-returns the square root of the `sqhell` value. -/
noncomputable def comparisonValue (f : CompFunctional) (l r : List ℝ) (num : ℕ) : ℝ :=
  match f with
  | CompFunctional.hell => Real.sqrt (rawDist CompFunctional.sqhell l r / num)
  | g => rawDist g l r / num

/-- Counterexample to claim C1 as stated: a caller-supplied arbitrary
functional is NOT returned undivided — the shared `return
dist / check_num()` divides it too.  With the constant functional 1 and an
emulation set of 2 samples, value is 1/2, not 1. -/
theorem comparison_value_divides_arbitrary :
    comparisonValue (CompFunctional.arbitrary fun _ _ => 1) [1] [0] 2 ≠ 1 := by
  simp only [comparisonValue, rawDist]
  norm_num

/-- Claim C1 as amended: every built-in keyword except `hell` returns its
raw distance divided by the emulation set's sample count; `hell` returns
the square root of the (already divided) `sqhell` value; and a
caller-supplied arbitrary functional's result is divided by the sample
count as well. -/
theorem comparison_value_division (l r : List ℝ) (n : ℕ) (p : ℝ)
    (g : List ℝ → List ℝ → ℝ) :
    comparisonValue CompFunctional.tv l r n =
      (List.zipWith (fun a b => 1 / 2 * |a - b|) l r).sum / n
    ∧ comparisonValue (CompFunctional.mink p) l r n = minkowski p 1 l r / n
    ∧ comparisonValue CompFunctional.norm l r n =
      norm2 (List.zipWith (fun a b => a - b) l r) / n
    ∧ comparisonValue CompFunctional.euclidean l r n = minkowski 2 1 l r / n
    ∧ comparisonValue CompFunctional.sqhell l r n =
      sqeuclidean (l.map Real.sqrt) (r.map Real.sqrt) / 2 / n
    ∧ comparisonValue CompFunctional.hell l r n =
      Real.sqrt (comparisonValue CompFunctional.sqhell l r n)
    ∧ comparisonValue (CompFunctional.arbitrary g) l r n = g l r / n := by
  refine ⟨?_, rfl, rfl, rfl, rfl, rfl, rfl⟩
  simp only [comparisonValue, rawDist, minkowski, Real.rpow_one, inv_one]

/-! ### Rectangle/ball region queries (C6, C10) -/

/-- One `j` iteration of the nested loops in rectangle_sample_set.query and
ball_sample_set.query, for a single query point: the state is the row of
pointer columns and the row of distance columns (numpy `inf` is `⊤`).
Column `j` is set to region `i` with distance 0 when it still holds the
sentinel `num - 1`, the point is in region `i`, and (for `j > 0`) the
previous column was not just set to `i`. -/
def regionStep (num i : ℕ) (inRec : Prop) [Decidable inRec]
    (st : List ℕ × List (WithTop ℚ)) (j : ℕ) : List ℕ × List (WithTop ℚ) :=
  if st.1.getD j 0 = num - 1 ∧ inRec ∧ (j = 0 ∨ st.1.getD (j - 1) 0 ≠ i) then
    (st.1.set j i, st.2.set j 0)
  else st

/-- The shared loop body of rectangle_sample_set.query and
ball_sample_set.query for one query point: iterate the explicit regions
`i = 0, …, num - 2` in order and, inside, the columns `j = 0, …, k - 1`,
starting from sentinel pointers `num - 1` and infinite distances. -/
def regionQuery (inRegion : ℕ → Prop) [DecidablePred inRegion] (num k : ℕ) :
    List ℕ × List (WithTop ℚ) :=
  (List.range (num - 1)).foldl
    (fun st i => (List.range k).foldl (fun st2 j => regionStep num i (inRegion i) st2 j) st)
    (List.replicate k (num - 1), List.replicate k ⊤)

/-- Containment test `in_rec` of rectangle_sample_set.query: componentwise
`x <= right` (np.less_equal) and `x > left` (np.greater). -/
def inRect (mins maxes x : List ℚ) : Prop :=
  (∀ pr ∈ x.zip maxes, pr.1 ≤ pr.2) ∧ (∀ pr ∈ x.zip mins, pr.2 < pr.1)

instance (mins maxes x : List ℚ) : Decidable (inRect mins maxes x) :=
  inferInstanceAs (Decidable
    ((∀ pr ∈ x.zip maxes, pr.1 ≤ pr.2) ∧ (∀ pr ∈ x.zip mins, pr.2 < pr.1)))

/-- rectangle_sample_set.query for one query point: `mins`/`maxes` list the
explicit rectangles' corners (`_left`/`_right` without their infinite last
row), so the region count is `mins.length + 1` including the implicit last
region. -/
def rectangleQuery (mins maxes : List (List ℚ)) (x : List ℚ) (k : ℕ) :
    List ℕ × List (WithTop ℚ) :=
  regionQuery (fun i => inRect (mins.getD i []) (maxes.getD i []) x)
    (mins.length + 1) k

/-- numpy.linalg.norm of a vector with order `p`:
`(Σ |t|^p)^(1/p)`. -/
noncomputable def pNormR (p : ℝ) (v : List ℝ) : ℝ :=
  ((v.map fun t => |t| ^ p).sum) ^ p⁻¹

/-- Containment test `in_rec` of ball_sample_set.query: the p-norm distance
to the center is strictly below the radius (np.less). -/
def inBall (center : List ℝ) (radius p : ℝ) (x : List ℝ) : Prop :=
  pNormR p (List.zipWith (fun u v => u - v) x center) < radius

open Classical in
/-- ball_sample_set.query for one query point: `centers`/`radii` list the
explicit balls (the `_radii` array without its infinite last entry), so the
region count is `centers.length + 1` including the implicit last region. -/
noncomputable def ballQuery (centers : List (List ℝ)) (radii : List ℝ)
    (p : ℝ) (x : List ℝ) (k : ℕ) : List ℕ × List (WithTop ℚ) :=
  regionQuery (fun i => inBall (centers.getD i []) (radii.getD i 0) p x)
    (centers.length + 1) k

/-- Claim C6's failing input: one explicit rectangle `[0, 2]` in one
dimension, query point `1` (inside it), `k = 3`.  The guard
`pt[:, j-1] != i` only inspects the adjacent column, so region 0 is written
into columns 0 AND 2 with the sentinel left in column 1 — the claimed
"distinct regions in increasing index order without repeats" is violated
even though the regions are disjoint. -/
theorem rectangle_query_k3_repeats :
    (rectangleQuery [[0]] [[2]] [(1 : ℚ)] 3).1 = [0, 1, 0]
    ∧ (rectangleQuery [[0]] [[2]] [(1 : ℚ)] 3).2 = [0, ⊤, 0] := by
  constructor <;> decide

/-- Claim C10: region membership at the frontier is asymmetric and
exclusive — a point is in an explicit rectangle iff componentwise at most
the max corner and strictly above the min corner, so a point on a
min-corner face is excluded and (with no containing region) falls to the
implicit last region at infinite distance; a point is in an explicit ball
iff strictly within the radius, so a point exactly on the sphere is
excluded and falls to the implicit last region likewise. -/
theorem region_membership_boundary (mins maxes x : List ℚ) (c y : List ℝ)
    (r p : ℝ) :
    (inRect mins maxes x ↔
      (∀ pr ∈ x.zip maxes, pr.1 ≤ pr.2) ∧ (∀ pr ∈ x.zip mins, pr.2 < pr.1))
    ∧ (∀ pr ∈ x.zip mins, pr.1 = pr.2 → ¬ inRect mins maxes x)
    ∧ (¬ inRect mins maxes x → rectangleQuery [mins] [maxes] x 1 = ([1], [⊤]))
    ∧ (inBall c r p y ↔ pNormR p (List.zipWith (fun u v => u - v) y c) < r)
    ∧ (pNormR p (List.zipWith (fun u v => u - v) y c) = r → ¬ inBall c r p y)
    ∧ (¬ inBall c r p y → ballQuery [c] [r] p y 1 = ([1], [⊤])) := by
  refine ⟨Iff.rfl, ?_, ?_, Iff.rfl, ?_, ?_⟩
  · intro pr hmem heq hin
    have hlt := hin.2 pr hmem
    rw [heq] at hlt
    exact lt_irrefl _ hlt
  · intro hn
    simp [rectangleQuery, regionQuery, regionStep, hn, List.range_succ]
  · intro heq hin
    rw [inBall, heq] at hin
    exact lt_irrefl r hin
  · intro hn
    simp [ballQuery, regionQuery, regionStep, hn, List.range_succ]

/-! ### Voronoi query self-consistency (C3) -/

/-- Modelled from the spec: voronoi_sample_set.query delegates to an
external spatial index (scipy KDTree over the set's values) whose contract
is exact nearest-neighbour search under the stored p-norm, ties going to
whatever the index returns first — here the lowest index.  `d` abstracts
the p-norm distance. -/
def nearestIdx {n : ℕ} {α : Type*} (d : α → α → ℚ) (vals : Fin (n + 1) → α)
    (x : α) : Fin (n + 1) :=
  (List.finRange (n + 1)).foldl
    (fun best j => if d (vals j) x < d (vals best) x then j else best) 0

lemma foldl_argmin_le {n : ℕ} {α : Type*} (d : α → α → ℚ)
    (vals : Fin (n + 1) → α) (x : α) (l : List (Fin (n + 1))) (b : Fin (n + 1)) :
    d (vals (l.foldl
        (fun best j => if d (vals j) x < d (vals best) x then j else best) b)) x
      ≤ d (vals b) x
    ∧ ∀ j ∈ l,
      d (vals (l.foldl
          (fun best j => if d (vals j) x < d (vals best) x then j else best) b)) x
        ≤ d (vals j) x := by
  induction l generalizing b with
  | nil => exact ⟨le_refl _, by simp⟩
  | cons a t ih =>
    simp only [List.foldl_cons]
    rcases lt_or_ge (d (vals a) x) (d (vals b) x) with hab | hab
    · rw [if_pos hab]
      refine ⟨le_trans (ih a).1 (le_of_lt hab), ?_⟩
      intro j hj
      rcases List.mem_cons.mp hj with heq | hjt
      · rw [heq]
        exact (ih a).1
      · exact (ih a).2 j hjt
    · rw [if_neg (not_lt.mpr hab)]
      refine ⟨(ih b).1, ?_⟩
      intro j hj
      rcases List.mem_cons.mp hj with heq | hjt
      · rw [heq]
        exact le_trans (ih b).1 hab
      · exact (ih b).2 j hjt

/-- Counterexample to claim C3 as stated: a Voronoi set may hold duplicate
sample locations (two 1-D samples both at 0), and then no deterministic
nearest-neighbour query can return each duplicate's own index — querying
with sample 1's value returns index 0. -/
theorem voronoi_query_self_duplicate :
    nearestIdx (fun a b : ℤ => ((|a - b| : ℤ) : ℚ)) (fun _ : Fin 2 => (0 : ℤ)) 0 ≠ 1 := by
  decide

/-- Claim C3 as amended: for a Voronoi sample set with DISTINCT sample
locations, querying the set with its own values returns owning index `i`
for every sample `i` — each sample point is strictly closest to itself,
for any distance that is zero on the diagonal and positive off it (every
p-norm is). -/
theorem voronoi_query_self {n : ℕ} {α : Type*} (d : α → α → ℚ)
    (vals : Fin (n + 1) → α) (hself : ∀ y, d y y = 0)
    (hpos : ∀ y z, y ≠ z → 0 < d y z) (hinj : Function.Injective vals)
    (i : Fin (n + 1)) : nearestIdx d vals (vals i) = i := by
  have h := foldl_argmin_le d vals (vals i) (List.finRange (n + 1)) 0
  have hle : d (vals (nearestIdx d vals (vals i))) (vals i) ≤ 0 := by
    have hi := h.2 i (List.mem_finRange i)
    rw [hself (vals i)] at hi
    exact hi
  by_contra hne
  have hvne : vals (nearestIdx d vals (vals i)) ≠ vals i := fun hv => hne (hinj hv)
  exact absurd hle (not_le.mpr (hpos _ _ hvne))

/-- Witness for C3 (amended) at two distinct 1-D samples. -/
theorem voronoi_query_self_witness :
    nearestIdx (fun a b : ℤ => ((|a - b| : ℤ) : ℚ)) ![(0 : ℤ), 1] (![(0 : ℤ), 1] 1) = 1 :=
  voronoi_query_self (fun a b : ℤ => ((|a - b| : ℤ) : ℚ)) ![(0 : ℤ), 1]
    (fun y => by simp) (fun y z h => by show (0 : ℚ) < ((|y - z| : ℤ) : ℚ); exact_mod_cast abs_sub_pos.mpr h)
    (by decide) 1

/-! ### Exact rectangle and ball volumes (C5) -/

/-- rectangle_sample_set.exact_volume_lebesgue: explicit region `i` gets
the product over coordinates of its width over the domain width, and the
implicit last region gets one minus the explicit regions' total.  `widths`
is the `_width` array without its infinite last row; `domain` pairs each
coordinate's lower and upper bound. -/
def exactVolumeLebesgue (widths : List (List ℚ)) (domain : List (ℚ × ℚ)) : List ℚ :=
  let domainWidth := domain.map fun d => d.2 - d.1
  let expl := widths.map fun w =>
    (List.zipWith (fun wi dw => wi / dw) w domainWidth).prod
  expl ++ [1 - expl.sum]

/-- ball_sample_set.exact_volume: explicit ball `i` of radius `r` gets the
Lp-ball volume `2^dim r^dim Γ(1 + 1/p)^dim / Γ(1 + dim/p)` times
`1 / domainVol`, and the implicit last region gets one minus the explicit
total.  `radii` is the `_radii` array without its infinite last entry. -/
noncomputable def ballExactVolume (dim : ℕ) (p : ℝ) (radii : List ℝ)
    (domainVol : ℝ) : List ℝ :=
  let expl := radii.map fun r =>
    2 ^ dim * r ^ dim * Real.Gamma (1 + 1 / p) ^ dim /
      Real.Gamma (1 + (dim : ℝ) / p) * (1 / domainVol)
  expl ++ [1 - expl.sum]

/-- Claim C5: each explicit rectangle region's volume is the product over
coordinates of region width over domain width, the implicit last region's
volume is one minus the explicit regions' sum, and the ball sample set's
exact volume has the same complement structure. -/
theorem exact_volume_complement (widths : List (List ℚ)) (domain : List (ℚ × ℚ))
    (dim : ℕ) (p : ℝ) (radii : List ℝ) (domainVol : ℝ) :
    (∀ i, i < widths.length →
      (exactVolumeLebesgue widths domain)[i]? =
        some ((List.zipWith (fun wi dw => wi / dw) (widths.getD i [])
          (domain.map fun d => d.2 - d.1)).prod))
    ∧ (exactVolumeLebesgue widths domain).getLast? =
        some (1 - (widths.map fun w =>
          (List.zipWith (fun wi dw => wi / dw) w
            (domain.map fun d => d.2 - d.1)).prod).sum)
    ∧ (ballExactVolume dim p radii domainVol).getLast? =
        some (1 - (radii.map fun r =>
          2 ^ dim * r ^ dim * Real.Gamma (1 + 1 / p) ^ dim /
            Real.Gamma (1 + (dim : ℝ) / p) * (1 / domainVol)).sum) := by
  refine ⟨?_, ?_, ?_⟩
  · intro i hi
    simp only [exactVolumeLebesgue]
    rw [List.getElem?_append_left (by simpa using hi)]
    rw [List.getElem?_map, List.getElem?_eq_getElem hi]
    rw [List.getD_eq_getElem widths [] hi]
    rfl
  · simp only [exactVolumeLebesgue]
    exact List.getLast?_concat _
  · simp only [ballExactVolume]
    exact List.getLast?_concat _

/-! ### Exact 1-D Voronoi volumes (C2) -/

/-- Cell edges built by voronoi_sample_set.exact_volume_1D over the sorted
samples `s`: the domain's left end `a`, the midpoints of consecutive sorted
samples, and the right end `b`. -/
def sortedEdges {n : ℕ} (s : Fin n → ℚ) (a b : ℚ) (k : ℕ) : ℚ :=
  if k = 0 then a
  else if h : n ≤ k then b
  else (s ⟨k - 1, by omega⟩ + s ⟨k, by omega⟩) / 2

/-- voronoi_sample_set.exact_volume_1D for sample `i`: argsort the values
(here the sorting permutation Tuple.sort, unique on distinct values), look
up sample `i`'s position `k` in sorted order, and return
`(edges[k+1] - edges[k]) / domain_width` — the scatter
`lam_vol[sort_ind] = sorted_lam_vol` followed by the division. -/
def exactVolume1D {n : ℕ} (vals : Fin n → ℚ) (a b : ℚ) (i : Fin n) : ℚ :=
  (sortedEdges (vals ∘ Tuple.sort vals) a b (((Tuple.sort vals).symm i : ℕ) + 1)
    - sortedEdges (vals ∘ Tuple.sort vals) a b ((Tuple.sort vals).symm i : ℕ))
    / (b - a)

/-- Spec-side left Voronoi boundary of sample `i`: the midpoint to the
nearest smaller sample, or the domain's left end when no sample is
smaller. -/
def specLeftEdge {n : ℕ} (vals : Fin n → ℚ) (a : ℚ) (i : Fin n) : ℚ :=
  let below := Finset.univ.filter fun j => vals j < vals i
  if h : below.Nonempty then (below.sup' h vals + vals i) / 2 else a

/-- Spec-side right Voronoi boundary of sample `i`: the midpoint to the
nearest larger sample, or the domain's right end when no sample is
larger. -/
def specRightEdge {n : ℕ} (vals : Fin n → ℚ) (b : ℚ) (i : Fin n) : ℚ :=
  let above := Finset.univ.filter fun j => vals i < vals j
  if h : above.Nonempty then (vals i + above.inf' h vals) / 2 else b

lemma sort_strictMono {n : ℕ} (vals : Fin n → ℚ)
    (hinj : Function.Injective vals) :
    StrictMono (vals ∘ Tuple.sort vals) :=
  (Tuple.monotone_sort vals).strictMono_of_injective
    (hinj.comp (Tuple.sort vals).injective)

lemma sortedEdges_left {n : ℕ} (vals : Fin n → ℚ) (a b : ℚ)
    (hinj : Function.Injective vals) (i : Fin n) :
    sortedEdges (vals ∘ Tuple.sort vals) a b ((Tuple.sort vals).symm i : ℕ)
      = specLeftEdge vals a i := by
  have hs : StrictMono (vals ∘ Tuple.sort vals) := sort_strictMono vals hinj
  set σ := Tuple.sort vals with hσ
  set k : Fin n := σ.symm i with hk
  have hvi : (vals ∘ σ) k = vals i := by
    rw [hk]
    simp [Function.comp]
  have hmem : ∀ j : Fin n, vals j < vals i ↔ σ.symm j < k := by
    intro j
    have hvj : (vals ∘ σ) (σ.symm j) = vals j := by simp [Function.comp]
    rw [← hvj, ← hvi, hs.lt_iff_lt]
  by_cases h0 : (k : ℕ) = 0
  · have hempty : (Finset.univ.filter fun j => vals j < vals i) = ∅ := by
      apply Finset.filter_eq_empty_iff.mpr
      intro j _
      rw [hmem j, Fin.lt_def]
      omega
    simp [sortedEdges, specLeftEdge, h0, hempty]
  · have hkn : (k : ℕ) < n := k.isLt
    have hk1 : (k : ℕ) - 1 < n := by omega
    have hj0mem : σ ⟨(k : ℕ) - 1, hk1⟩ ∈
        Finset.univ.filter fun j => vals j < vals i := by
      rw [Finset.mem_filter]
      refine ⟨Finset.mem_univ _, ?_⟩
      rw [hmem _, Equiv.symm_apply_apply, Fin.lt_def]
      show (k : ℕ) - 1 < (k : ℕ)
      omega
    have hne : (Finset.univ.filter fun j => vals j < vals i).Nonempty :=
      ⟨_, hj0mem⟩
    have hsup : (Finset.univ.filter fun j => vals j < vals i).sup' hne vals
        = (vals ∘ σ) ⟨(k : ℕ) - 1, hk1⟩ := by
      apply le_antisymm
      · apply Finset.sup'_le
        intro j hj
        rw [Finset.mem_filter] at hj
        have hlt : σ.symm j < k := (hmem j).mp hj.2
        have hmle : σ.symm j ≤ (⟨(k : ℕ) - 1, hk1⟩ : Fin n) := by
          rw [Fin.le_def]
          show (σ.symm j : ℕ) ≤ (k : ℕ) - 1
          have hnat := Fin.lt_def.mp hlt
          omega
        have hle2 := hs.monotone hmle
        have hvj : (vals ∘ σ) (σ.symm j) = vals j := by simp [Function.comp]
        rw [← hvj]
        exact hle2
      · exact Finset.le_sup' vals hj0mem
    simp only [specLeftEdge]
    rw [dif_pos hne, hsup]
    simp only [sortedEdges]
    rw [if_neg h0, dif_neg (by omega : ¬ n ≤ (k : ℕ))]
    rw [Fin.eta, hvi]

lemma sortedEdges_right {n : ℕ} (vals : Fin n → ℚ) (a b : ℚ)
    (hinj : Function.Injective vals) (i : Fin n) :
    sortedEdges (vals ∘ Tuple.sort vals) a b (((Tuple.sort vals).symm i : ℕ) + 1)
      = specRightEdge vals b i := by
  have hs : StrictMono (vals ∘ Tuple.sort vals) := sort_strictMono vals hinj
  set σ := Tuple.sort vals with hσ
  set k : Fin n := σ.symm i with hk
  have hvi : (vals ∘ σ) k = vals i := by
    rw [hk]
    simp [Function.comp]
  have hmem : ∀ j : Fin n, vals i < vals j ↔ k < σ.symm j := by
    intro j
    have hvj : (vals ∘ σ) (σ.symm j) = vals j := by simp [Function.comp]
    rw [← hvj, ← hvi, hs.lt_iff_lt]
  by_cases htop : n ≤ (k : ℕ) + 1
  · have hempty : (Finset.univ.filter fun j => vals i < vals j) = ∅ := by
      apply Finset.filter_eq_empty_iff.mpr
      intro j _
      rw [hmem j, Fin.lt_def]
      have := (σ.symm j).isLt
      omega
    simp only [specRightEdge, hempty]
    rw [dif_neg (by simp)]
    simp only [sortedEdges]
    rw [if_neg (by omega), dif_pos htop]
  · have hk1 : (k : ℕ) + 1 < n := by omega
    have hj1mem : σ ⟨(k : ℕ) + 1, hk1⟩ ∈
        Finset.univ.filter fun j => vals i < vals j := by
      rw [Finset.mem_filter]
      refine ⟨Finset.mem_univ _, ?_⟩
      rw [hmem _, Equiv.symm_apply_apply, Fin.lt_def]
      show (k : ℕ) < (k : ℕ) + 1
      omega
    have hne : (Finset.univ.filter fun j => vals i < vals j).Nonempty :=
      ⟨_, hj1mem⟩
    have hinf : (Finset.univ.filter fun j => vals i < vals j).inf' hne vals
        = (vals ∘ σ) ⟨(k : ℕ) + 1, hk1⟩ := by
      apply le_antisymm
      · exact Finset.inf'_le vals hj1mem
      · apply Finset.le_inf'
        intro j hj
        rw [Finset.mem_filter] at hj
        have hlt : k < σ.symm j := (hmem j).mp hj.2
        have hmle : (⟨(k : ℕ) + 1, hk1⟩ : Fin n) ≤ σ.symm j := by
          rw [Fin.le_def]
          show (k : ℕ) + 1 ≤ (σ.symm j : ℕ)
          have hnat := Fin.lt_def.mp hlt
          omega
        have hle2 := hs.monotone hmle
        have hvj : (vals ∘ σ) (σ.symm j) = vals j := by simp [Function.comp]
        rw [← hvj]
        exact hle2
    simp only [specRightEdge]
    rw [dif_pos hne, hinf]
    simp only [sortedEdges]
    rw [if_neg (by omega), dif_neg (by omega : ¬ n ≤ (k : ℕ) + 1)]
    have hmk : (⟨(k : ℕ) + 1 - 1, by omega⟩ : Fin n) = k := by
      apply Fin.ext
      show (k : ℕ) + 1 - 1 = (k : ℕ)
      omega
    rw [hmk, hvi]

lemma exactVolume1D_sum {n : ℕ} (vals : Fin n → ℚ) (a b : ℚ)
    (hn : 0 < n) (hab : a ≠ b) :
    ∑ i, exactVolume1D vals a b i = 1 := by
  have h1 : ∑ i : Fin n, exactVolume1D vals a b i
      = ∑ k : Fin n, (sortedEdges (vals ∘ Tuple.sort vals) a b ((k : ℕ) + 1)
          - sortedEdges (vals ∘ Tuple.sort vals) a b (k : ℕ)) / (b - a) := by
    apply Fintype.sum_equiv (Tuple.sort vals).symm
    intro i
    rfl
  rw [h1]
  rw [Fin.sum_univ_eq_sum_range (fun m =>
    (sortedEdges (vals ∘ Tuple.sort vals) a b (m + 1)
      - sortedEdges (vals ∘ Tuple.sort vals) a b m) / (b - a)) n]
  rw [← Finset.sum_div]
  rw [Finset.sum_range_sub (fun m => sortedEdges (vals ∘ Tuple.sort vals) a b m) n]
  have hEn : sortedEdges (vals ∘ Tuple.sort vals) a b n = b := by
    simp only [sortedEdges]
    rw [if_neg (by omega), dif_pos (le_refl n)]
  have hE0 : sortedEdges (vals ∘ Tuple.sort vals) a b 0 = a := by
    simp [sortedEdges]
  rw [hEn, hE0]
  exact div_self (sub_ne_zero.mpr (Ne.symm hab))

/-- Claim C2: for a 1-D Voronoi sample set with distinct sample locations
and an explicit domain `[a, b]`, exact_volume_1D assigns each sample the
width of its Voronoi cell — bounded by the midpoints to its neighboring
samples and by the domain endpoints — divided by the domain width, and the
volumes sum to exactly 1. -/
theorem exact_volume_1D_spec {n : ℕ} (vals : Fin n → ℚ) (a b : ℚ)
    (hn : 0 < n) (hinj : Function.Injective vals) (hab : a ≠ b) :
    (∀ i, exactVolume1D vals a b i
      = (specRightEdge vals b i - specLeftEdge vals a i) / (b - a))
    ∧ ∑ i, exactVolume1D vals a b i = 1 := by
  refine ⟨?_, exactVolume1D_sum vals a b hn hab⟩
  intro i
  unfold exactVolume1D
  rw [sortedEdges_left vals a b hinj i, sortedEdges_right vals a b hinj i]

/-- Witness for C2 at two distinct samples in the unit domain. -/
theorem exact_volume_1D_spec_witness :
    (∀ i, exactVolume1D ![(0 : ℚ), 1] 0 1 i
      = (specRightEdge ![(0 : ℚ), 1] 1 i - specLeftEdge ![(0 : ℚ), 1] 0 i) / (1 - 0))
    ∧ ∑ i, exactVolume1D ![(0 : ℚ), 1] 0 1 i = 1 :=
  exact_volume_1D_spec ![(0 : ℚ), 1] 0 1 (by decide) (by decide) (by decide)

end BET
